import Mathlib

/-!
Shallow embedding of the Git-Archiver v2 frontend (TypeScript sources under
src/git-archiver-v2 and src/unnamed) and proofs about it.  JavaScript strings
are modelled as `List Char`; the nullable TypeScript fields as `Option`;
machine numbers that the claims compute with as `Int`/`Nat`.
-/

set_option maxRecDepth 8000

namespace GitArchiver

/-- Characters of a string literal as a list; all string functions below work
on `List Char`. -/
def strL (s : String) : List Char := s.data

/-- JavaScript whitespace as removed by String.prototype.trim, by code point:
TAB LF VT FF CR SPACE NBSP OGHAM SPACE MARK, U+2000..U+200A, LINE SEPARATOR,
PARAGRAPH SEPARATOR, NARROW NBSP, MEDIUM MATHEMATICAL SPACE, IDEOGRAPHIC
SPACE, BOM. -/
def isJsWhitespace (c : Char) : Bool :=
  c.toNat = 9 || c.toNat = 10 || c.toNat = 11 || c.toNat = 12 || c.toNat = 13 ||
  c.toNat = 32 || c.toNat = 160 || c.toNat = 5760 ||
  (8192 ≤ c.toNat && c.toNat ≤ 8202) ||
  c.toNat = 8232 || c.toNat = 8233 || c.toNat = 8239 || c.toNat = 8287 ||
  c.toNat = 12288 || c.toNat = 65279

/-- Remove a trailing run of characters satisfying `p`. -/
def dropTrailing (p : Char → Bool) (l : List Char) : List Char :=
  (l.reverse.dropWhile p).reverse

/-- JavaScript String.prototype.trim: whitespace removed from both ends. -/
def jsTrim (l : List Char) : List Char :=
  dropTrailing isJsWhitespace (l.dropWhile isJsWhitespace)

/-- ASCII case folding, the fragment of String.prototype.toLowerCase the URL
code exercises (every string the validator accepts is pure ASCII). -/
def jsLowerChar (c : Char) : Char :=
  if 65 ≤ c.toNat && c.toNat ≤ 90 then Char.ofNat (c.toNat + 32) else c

/-- String.prototype.toLowerCase on the ASCII fragment. -/
def jsLower (l : List Char) : List Char := l.map jsLowerChar

/-- url.replace(/^http:\/\//, "https:\/\/") from normalizeRepoUrl. -/
def upgradeHttp (l : List Char) : List Char :=
  if (strL "http://").isPrefixOf l then strL "https://" ++ l.drop 7 else l

/-- url.replace(/\/+$/, "") from normalizeRepoUrl. -/
def stripTrailingSlashes (l : List Char) : List Char :=
  dropTrailing (fun c => c == '/') l

/-- url.replace(/\.git$/, "") from normalizeRepoUrl. -/
def stripGitSuffix (l : List Char) : List Char :=
  if (strL ".git").isSuffixOf l then l.take (l.length - 4) else l

/-- normalizeRepoUrl from src/git-archiver-v2 lib/utils: trim, lowercase,
upgrade http to https, strip trailing slashes, strip a final ".git". -/
def normalizeRepoUrl (l : List Char) : List Char :=
  stripGitSuffix (stripTrailingSlashes (upgradeHttp (jsLower (jsTrim l))))

/-- The character class [a-zA-Z0-9_.-] of the validator's regex, by code
point: A-Z, a-z, 0-9, underscore 95, period 46, hyphen 45. -/
def wordChar (c : Char) : Bool :=
  (65 ≤ c.toNat && c.toNat ≤ 90) || (97 ≤ c.toNat && c.toNat ≤ 122) ||
  (48 ≤ c.toNat && c.toNat ≤ 57) || c.toNat = 95 || c.toNat = 46 || c.toNat = 45

/-- One nonempty owner or repo segment of the regex. -/
def isWord (l : List Char) : Bool := !l.isEmpty && l.all wordChar

/-- Decides the regex past the second "/": the maximal run of segment
characters, then whatever the tail alternation (\/)?(\.git)?\/? can still
contribute once segment characters are absorbed into the segment. -/
def matchRepoTail (b : List Char) : Bool :=
  isWord (b.takeWhile (fun c => c != '/')) &&
    (b.dropWhile (fun c => c != '/') == [] ||
     b.dropWhile (fun c => c != '/') == strL "/" ||
     b.dropWhile (fun c => c != '/') == strL "//" ||
     b.dropWhile (fun c => c != '/') == strL "/.git" ||
     b.dropWhile (fun c => c != '/') == strL "/.git/")

/-- Decides owner "/" rest: everything of the regex after "github.com/". -/
def matchOwnerRepo (r : List Char) : Bool :=
  match r.dropWhile (fun c => c != '/') with
  | [] => false
  | _ :: b => isWord (r.takeWhile (fun c => c != '/')) && matchRepoTail b

/-- The optional (https?:\/\/)? prefix of the regex. -/
def stripScheme (t : List Char) : List Char :=
  if (strL "http://").isPrefixOf t then t.drop 7
  else if (strL "https://").isPrefixOf t then t.drop 8
  else t

/-- The optional (www\.)? prefix of the regex. -/
def stripWww (t : List Char) : List Char :=
  if (strL "www.").isPrefixOf t then t.drop 4 else t

/-- Decides the validator's anchored regex
^(https?:\/\/)?(www\.)?github\.com\/SEG\/SEG(\/)?(\.git)?\/?$ on a whole
string, SEG being a nonempty [a-zA-Z0-9_.-] run; the theorem
matchGithubUrl_iff_spec below proves it equal to the declarative reading of
that regex. -/
def matchGithubUrl (t : List Char) : Bool :=
  if (strL "github.com/").isPrefixOf (stripWww (stripScheme t)) then
    matchOwnerRepo ((stripWww (stripScheme t)).drop 11)
  else false

/-- isValidGithubUrl from src/git-archiver-v2 lib/utils: trim, reject the
empty string, then test the regex. -/
def isValidGithubUrl (url : List Char) : Bool :=
  !(jsTrim url).isEmpty && matchGithubUrl (jsTrim url)

/-- Declarative reading of the validator's regex: the exact decomposition the
regex alternates over.  Used to state what the validator accepts. -/
def SpecGithubUrl (t : List Char) : Prop :=
  ∃ scheme www w1 w2 o1 o2 o3 : List Char,
    (scheme = [] ∨ scheme = strL "http://" ∨ scheme = strL "https://") ∧
    (www = [] ∨ www = strL "www.") ∧
    isWord w1 = true ∧ isWord w2 = true ∧
    (o1 = [] ∨ o1 = strL "/") ∧
    (o2 = [] ∨ o2 = strL ".git") ∧
    (o3 = [] ∨ o3 = strL "/") ∧
    t = scheme ++ www ++ strL "github.com/" ++ w1 ++ strL "/" ++ w2 ++ o1 ++ o2 ++ o3

lemma isPrefixOf_append_self (p X : List Char) : p.isPrefixOf (p ++ X) = true :=
  List.isPrefixOf_iff_prefix.mpr ⟨X, rfl⟩

lemma isPrefixOf_elim {pre t : List Char} (h : pre.isPrefixOf t = true) :
    t = pre ++ t.drop pre.length := by
  obtain ⟨u, hu⟩ := List.isPrefixOf_iff_prefix.mp h
  rw [← hu, List.drop_left]

lemma stripScheme_http (X : List Char) : stripScheme (strL "http://" ++ X) = X := by
  unfold stripScheme
  rw [if_pos (isPrefixOf_append_self (strL "http://") X)]
  rfl

lemma stripScheme_https (X : List Char) : stripScheme (strL "https://" ++ X) = X := by
  unfold stripScheme
  rw [if_neg (show ¬((strL "http://").isPrefixOf (strL "https://" ++ X) = true) from
      fun h => Bool.false_ne_true h),
    if_pos (isPrefixOf_append_self (strL "https://") X)]
  rfl

lemma stripScheme_www (X : List Char) : stripScheme (strL "www." ++ X) = strL "www." ++ X := rfl

lemma stripScheme_ghc (X : List Char) :
    stripScheme (strL "github.com/" ++ X) = strL "github.com/" ++ X := rfl

lemma stripWww_www (X : List Char) : stripWww (strL "www." ++ X) = X := by
  unfold stripWww
  rw [if_pos (isPrefixOf_append_self (strL "www.") X)]
  rfl

lemma stripWww_ghc (X : List Char) :
    stripWww (strL "github.com/" ++ X) = strL "github.com/" ++ X := rfl

lemma matchGithubUrl_ghc (R : List Char) :
    matchGithubUrl (strL "github.com/" ++ R) = matchOwnerRepo R := by
  unfold matchGithubUrl
  rw [stripScheme_ghc, stripWww_ghc, if_pos (isPrefixOf_append_self (strL "github.com/") R)]
  rfl

lemma matchGithubUrl_build (scheme www R : List Char)
    (hs : scheme = [] ∨ scheme = strL "http://" ∨ scheme = strL "https://")
    (hw : www = [] ∨ www = strL "www.") :
    matchGithubUrl (scheme ++ (www ++ (strL "github.com/" ++ R))) = matchOwnerRepo R := by
  rcases hw with rfl | rfl
  · rcases hs with rfl | rfl | rfl
    · rw [List.nil_append, List.nil_append, matchGithubUrl_ghc]
    · unfold matchGithubUrl
      rw [stripScheme_http, List.nil_append, stripWww_ghc,
        if_pos (isPrefixOf_append_self (strL "github.com/") R)]
      rfl
    · unfold matchGithubUrl
      rw [stripScheme_https, List.nil_append, stripWww_ghc,
        if_pos (isPrefixOf_append_self (strL "github.com/") R)]
      rfl
  · rcases hs with rfl | rfl | rfl
    · unfold matchGithubUrl
      rw [List.nil_append, stripScheme_www, stripWww_www,
        if_pos (isPrefixOf_append_self (strL "github.com/") R)]
      rfl
    · unfold matchGithubUrl
      rw [stripScheme_http, stripWww_www,
        if_pos (isPrefixOf_append_self (strL "github.com/") R)]
      rfl
    · unfold matchGithubUrl
      rw [stripScheme_https, stripWww_www,
        if_pos (isPrefixOf_append_self (strL "github.com/") R)]
      rfl

lemma wordChar_ne_slash {c : Char} (h : wordChar c = true) : (c != '/') = true := by
  rcases eq_or_ne c '/' with rfl | hne
  · exact absurd h (by decide)
  · simpa using hne

lemma isWord_parts {w : List Char} (h : isWord w = true) :
    w ≠ [] ∧ ∀ c ∈ w, wordChar c = true := by
  rcases (Bool.and_eq_true _ _).mp h with ⟨h1, h2⟩
  refine ⟨?_, List.all_eq_true.mp h2⟩
  intro hw
  subst hw
  simp at h1

lemma isWord_no_slash {w : List Char} (h : isWord w = true) :
    ∀ c ∈ w, (c != '/') = true :=
  fun c hc => wordChar_ne_slash ((isWord_parts h).2 c hc)

lemma takeWhile_append_cons (p : Char → Bool) (w : List Char) (x : Char) (b : List Char)
    (hw : ∀ c ∈ w, p c = true) (hx : p x = false) :
    (w ++ x :: b).takeWhile p = w ∧ (w ++ x :: b).dropWhile p = x :: b := by
  induction w with
  | nil => simp [List.takeWhile_cons, List.dropWhile_cons, hx]
  | cons a w ih =>
    have ha : p a = true := hw a (by simp)
    have ih' := ih (fun c hc => hw c (by simp [hc]))
    simp [List.takeWhile_cons, List.dropWhile_cons, ha, ih'.1, ih'.2]

lemma takeWhile_all (p : Char → Bool) (l : List Char) (h : ∀ c ∈ l, p c = true) :
    l.takeWhile p = l ∧ l.dropWhile p = [] := by
  induction l with
  | nil => simp
  | cons a l ih =>
    have ih' := ih (fun c hc => h c (by simp [hc]))
    simp [List.takeWhile_cons, List.dropWhile_cons, h a (by simp), ih'.1, ih'.2]

lemma dropWhile_head_false (p : Char → Bool) (l : List Char) (c : Char) (b : List Char)
    (h : l.dropWhile p = c :: b) : p c = false := by
  induction l with
  | nil => simp at h
  | cons a l ih =>
    rw [List.dropWhile_cons] at h
    by_cases ha : p a = true
    · rw [if_pos ha] at h
      exact ih h
    · rw [if_neg ha] at h
      injection h with h1 _
      subst h1
      simpa using ha

lemma isWord_append_git {w : List Char} (h : isWord w = true) :
    isWord (w ++ strL ".git") = true := by
  rcases (Bool.and_eq_true _ _).mp h with ⟨_, h2⟩
  apply (Bool.and_eq_true _ _).mpr
  constructor
  · have : w ++ strL ".git" ≠ [] := by simp [strL]
    simpa [List.isEmpty_iff] using this
  · rw [List.all_append, h2, Bool.true_and]
    decide

lemma matchRepoTail_build (w suf : List Char) (hw : isWord w = true)
    (hs : suf = [] ∨ suf = strL "/" ∨ suf = strL "//" ∨
      suf = strL "/.git" ∨ suf = strL "/.git/") :
    matchRepoTail (w ++ suf) = true := by
  unfold matchRepoTail
  rcases hs with rfl | rfl | rfl | rfl | rfl
  · have h := takeWhile_all (fun c => c != '/') w (isWord_no_slash hw)
    rw [List.append_nil, h.1, h.2, hw]
    decide
  · have h := takeWhile_append_cons (fun c => c != '/') w '/' [] (isWord_no_slash hw) (by decide)
    rw [show strL "/" = '/' :: [] from rfl, h.1, h.2, hw]
    decide
  · have h := takeWhile_append_cons (fun c => c != '/') w '/' (strL "/") (isWord_no_slash hw)
      (by decide)
    rw [show strL "//" = '/' :: strL "/" from rfl, h.1, h.2, hw]
    decide
  · have h := takeWhile_append_cons (fun c => c != '/') w '/' (strL ".git")
      (isWord_no_slash hw) (by decide)
    rw [show strL "/.git" = '/' :: strL ".git" from rfl, h.1, h.2, hw]
    decide
  · have h := takeWhile_append_cons (fun c => c != '/') w '/' (strL ".git/")
      (isWord_no_slash hw) (by decide)
    rw [show strL "/.git/" = '/' :: strL ".git/" from rfl, h.1, h.2, hw]
    decide

lemma matchOwnerRepo_build (w1 rest : List Char) (hw : isWord w1 = true)
    (ht : matchRepoTail rest = true) :
    matchOwnerRepo (w1 ++ '/' :: rest) = true := by
  unfold matchOwnerRepo
  have h := takeWhile_append_cons (fun c => c != '/') w1 '/' rest (isWord_no_slash hw) (by decide)
  rw [h.2]
  show (isWord ((w1 ++ '/' :: rest).takeWhile (fun c => c != '/')) && matchRepoTail rest) = true
  rw [h.1, hw, ht]
  rfl

lemma matchRepoTail_elim {b : List Char} (h : matchRepoTail b = true) :
    ∃ w suf, isWord w = true ∧
      (suf = [] ∨ suf = strL "/" ∨ suf = strL "//" ∨
        suf = strL "/.git" ∨ suf = strL "/.git/") ∧
      b = w ++ suf := by
  unfold matchRepoTail at h
  rcases (Bool.and_eq_true _ _).mp h with ⟨h1, h2⟩
  refine ⟨b.takeWhile (fun c => c != '/'), b.dropWhile (fun c => c != '/'), h1, ?_,
    (List.takeWhile_append_dropWhile _ _).symm⟩
  simp only [Bool.or_eq_true, beq_iff_eq] at h2
  tauto

lemma matchOwnerRepo_elim {r : List Char} (h : matchOwnerRepo r = true) :
    ∃ w1 b, isWord w1 = true ∧ matchRepoTail b = true ∧ r = w1 ++ '/' :: b := by
  unfold matchOwnerRepo at h
  cases hd : r.dropWhile (fun c => c != '/') with
  | nil =>
    rw [hd] at h
    exact absurd h (by simp)
  | cons c b =>
    rw [hd] at h
    have h' : (isWord (r.takeWhile (fun x => x != '/')) && matchRepoTail b) = true := h
    have hc : c = '/' := by simpa using dropWhile_head_false _ _ _ _ hd
    rcases (Bool.and_eq_true _ _).mp h' with ⟨h1, h2⟩
    refine ⟨r.takeWhile (fun x => x != '/'), b, h1, h2, ?_⟩
    have he := List.takeWhile_append_dropWhile (fun x => x != '/') r
    rw [hd, hc] at he
    exact he.symm

lemma stripScheme_cases (t : List Char) :
    ∃ scheme, (scheme = [] ∨ scheme = strL "http://" ∨ scheme = strL "https://") ∧
      t = scheme ++ stripScheme t := by
  unfold stripScheme
  by_cases h1 : (strL "http://").isPrefixOf t = true
  · rw [if_pos h1]
    exact ⟨strL "http://", Or.inr (Or.inl rfl), isPrefixOf_elim h1⟩
  · rw [if_neg h1]
    by_cases h2 : (strL "https://").isPrefixOf t = true
    · rw [if_pos h2]
      exact ⟨strL "https://", Or.inr (Or.inr rfl), isPrefixOf_elim h2⟩
    · rw [if_neg h2]
      exact ⟨[], Or.inl rfl, rfl⟩

lemma stripWww_cases (t : List Char) :
    ∃ www, (www = [] ∨ www = strL "www.") ∧ t = www ++ stripWww t := by
  unfold stripWww
  by_cases h1 : (strL "www.").isPrefixOf t = true
  · rw [if_pos h1]
    exact ⟨strL "www.", Or.inr rfl, isPrefixOf_elim h1⟩
  · rw [if_neg h1]
    exact ⟨[], Or.inl rfl, rfl⟩

/-- The Boolean regex matcher decides exactly the declarative language of the
validator's regex. -/
lemma matchGithubUrl_iff_spec (t : List Char) : matchGithubUrl t = true ↔ SpecGithubUrl t := by
  constructor
  · intro hm
    obtain ⟨scheme, hs, hts⟩ := stripScheme_cases t
    obtain ⟨www, hw, htw⟩ := stripWww_cases (stripScheme t)
    unfold matchGithubUrl at hm
    by_cases hg : (strL "github.com/").isPrefixOf (stripWww (stripScheme t)) = true
    swap
    · rw [if_neg hg] at hm
      exact absurd hm (by simp)
    rw [if_pos hg] at hm
    have hgr : stripWww (stripScheme t) =
        strL "github.com/" ++ (stripWww (stripScheme t)).drop 11 := isPrefixOf_elim hg
    obtain ⟨w1, b, hw1, htail, hb⟩ := matchOwnerRepo_elim hm
    obtain ⟨w2, suf, hw2, hsuf, hbs⟩ := matchRepoTail_elim htail
    have e1 : t = scheme ++ stripScheme t := hts
    rw [htw] at e1
    rw [hgr] at e1
    rw [hb] at e1
    rw [hbs] at e1
    have c1 : strL "/" = ['/'] := rfl
    have c2 : strL "//" = ['/', '/'] := rfl
    have c3 : strL ".git" = ['.', 'g', 'i', 't'] := rfl
    have c4 : strL "/.git" = ['/', '.', 'g', 'i', 't'] := rfl
    have c5 : strL "/.git/" = ['/', '.', 'g', 'i', 't', '/'] := rfl
    rcases hsuf with rfl | rfl | rfl | rfl | rfl
    · exact ⟨scheme, www, w1, w2, [], [], [], hs, hw, hw1, hw2,
        Or.inl rfl, Or.inl rfl, Or.inl rfl, by simpa [c1] using e1⟩
    · exact ⟨scheme, www, w1, w2, strL "/", [], [], hs, hw, hw1, hw2,
        Or.inr rfl, Or.inl rfl, Or.inl rfl, by simpa [c1] using e1⟩
    · exact ⟨scheme, www, w1, w2, strL "/", [], strL "/", hs, hw, hw1, hw2,
        Or.inr rfl, Or.inl rfl, Or.inr rfl, by simpa [c1, c2] using e1⟩
    · exact ⟨scheme, www, w1, w2, strL "/", strL ".git", [], hs, hw, hw1, hw2,
        Or.inr rfl, Or.inr rfl, Or.inl rfl, by simpa [c1, c3, c4] using e1⟩
    · exact ⟨scheme, www, w1, w2, strL "/", strL ".git", strL "/", hs, hw, hw1, hw2,
        Or.inr rfl, Or.inr rfl, Or.inr rfl, by simpa [c1, c3, c5] using e1⟩
  · rintro ⟨scheme, www, w1, w2, o1, o2, o3, hs, hw, hw1, hw2, ho1, ho2, ho3, rfl⟩
    rw [show scheme ++ www ++ strL "github.com/" ++ w1 ++ strL "/" ++ w2 ++ o1 ++ o2 ++ o3
        = scheme ++ (www ++ (strL "github.com/" ++
          (w1 ++ strL "/" ++ w2 ++ o1 ++ o2 ++ o3))) by simp [List.append_assoc]]
    rw [matchGithubUrl_build scheme www _ hs hw]
    rw [show w1 ++ strL "/" ++ w2 ++ o1 ++ o2 ++ o3
        = w1 ++ '/' :: (w2 ++ o1 ++ o2 ++ o3) by
      simp [show strL "/" = ['/'] from rfl]]
    apply matchOwnerRepo_build _ _ hw1
    rcases ho1 with rfl | rfl <;> rcases ho2 with rfl | rfl <;> rcases ho3 with rfl | rfl
    · simpa using matchRepoTail_build w2 [] hw2 (Or.inl rfl)
    · simpa using matchRepoTail_build w2 (strL "/") hw2 (Or.inr (Or.inl rfl))
    · simpa using matchRepoTail_build (w2 ++ strL ".git") [] (isWord_append_git hw2)
        (Or.inl rfl)
    · simpa using matchRepoTail_build (w2 ++ strL ".git") (strL "/") (isWord_append_git hw2)
        (Or.inr (Or.inl rfl))
    · simpa using matchRepoTail_build w2 (strL "/") hw2 (Or.inr (Or.inl rfl))
    · simpa using matchRepoTail_build w2 (strL "//") hw2 (Or.inr (Or.inr (Or.inl rfl)))
    · simpa using matchRepoTail_build w2 (strL "/.git") hw2
        (Or.inr (Or.inr (Or.inr (Or.inl rfl))))
    · simpa using matchRepoTail_build w2 (strL "/.git/") hw2
        (Or.inr (Or.inr (Or.inr (Or.inr rfl))))

/-- Characters a string of the regex language can contain: the segment class
plus colon 58 and slash 47. -/
def urlChar (c : Char) : Bool := wordChar c || c.toNat = 58 || c.toNat = 47

lemma wordChar_urlChar {c : Char} (h : wordChar c = true) : urlChar c = true := by
  unfold urlChar
  rw [h]
  rfl

lemma spec_all_urlChar {t : List Char} (h : SpecGithubUrl t) :
    ∀ c ∈ t, urlChar c = true := by
  obtain ⟨scheme, www, w1, w2, o1, o2, o3, hs, hw, hw1, hw2, ho1, ho2, ho3, rfl⟩ := h
  have hword1 := (isWord_parts hw1).2
  have hword2 := (isWord_parts hw2).2
  intro c hc
  simp only [List.mem_append] at hc
  rcases hc with ((((((((hc | hc) | hc) | hc) | hc) | hc) | hc) | hc) | hc)
  · rcases hs with rfl | rfl | rfl
    · exact absurd hc (by simp)
    · exact (by decide : ∀ x ∈ strL "http://", urlChar x = true) c hc
    · exact (by decide : ∀ x ∈ strL "https://", urlChar x = true) c hc
  · rcases hw with rfl | rfl
    · exact absurd hc (by simp)
    · exact (by decide : ∀ x ∈ strL "www.", urlChar x = true) c hc
  · exact (by decide : ∀ x ∈ strL "github.com/", urlChar x = true) c hc
  · exact wordChar_urlChar (hword1 c hc)
  · exact (by decide : ∀ x ∈ strL "/", urlChar x = true) c hc
  · exact wordChar_urlChar (hword2 c hc)
  · rcases ho1 with rfl | rfl
    · exact absurd hc (by simp)
    · exact (by decide : ∀ x ∈ strL "/", urlChar x = true) c hc
  · rcases ho2 with rfl | rfl
    · exact absurd hc (by simp)
    · exact (by decide : ∀ x ∈ strL ".git", urlChar x = true) c hc
  · rcases ho3 with rfl | rfl
    · exact absurd hc (by simp)
    · exact (by decide : ∀ x ∈ strL "/", urlChar x = true) c hc

lemma urlChar_not_ws {c : Char} (h : urlChar c = true) : isJsWhitespace c = false := by
  cases hws : isJsWhitespace c
  · rfl
  · exfalso
    unfold isJsWhitespace at hws
    unfold urlChar wordChar at h
    simp only [Bool.or_eq_true, Bool.and_eq_true, decide_eq_true_eq] at hws h
    omega

lemma toNat_jsLowerChar (c : Char) :
    (jsLowerChar c).toNat =
      if 65 ≤ c.toNat ∧ c.toNat ≤ 90 then c.toNat + 32 else c.toNat := by
  unfold jsLowerChar
  by_cases h : 65 ≤ c.toNat ∧ c.toNat ≤ 90
  · rw [if_pos (by simpa using h), if_pos h]
    have hv : c.toNat + 32 < 55296 := by omega
    unfold Char.ofNat
    rw [dif_pos (Or.inl hv)]
    rfl
  · rw [if_neg (by simpa using h), if_neg h]

lemma jsLowerChar_fixed {c : Char} (h : ¬(65 ≤ c.toNat ∧ c.toNat ≤ 90)) :
    jsLowerChar c = c := by
  unfold jsLowerChar
  rw [if_neg (by simpa using h)]

lemma jsLowerChar_idem (c : Char) : jsLowerChar (jsLowerChar c) = jsLowerChar c := by
  by_cases h : 65 ≤ c.toNat ∧ c.toNat ≤ 90
  · apply jsLowerChar_fixed
    rw [toNat_jsLowerChar, if_pos h]
    omega
  · rw [jsLowerChar_fixed h]
    exact jsLowerChar_fixed h

lemma urlChar_jsLowerChar {c : Char} (h : urlChar c = true) :
    urlChar (jsLowerChar c) = true := by
  unfold urlChar wordChar at h ⊢
  simp only [Bool.or_eq_true, Bool.and_eq_true, decide_eq_true_eq] at h ⊢
  rw [toNat_jsLowerChar]
  by_cases hc : 65 ≤ c.toNat ∧ c.toNat ≤ 90
  · rw [if_pos hc]
    omega
  · rw [if_neg hc]
    omega

lemma map_fixed {f : Char → Char} {l : List Char} (h : ∀ c ∈ l, f c = c) :
    l.map f = l := by
  induction l with
  | nil => rfl
  | cons a l ih =>
    rw [List.map_cons, h a (List.mem_cons_self a l),
      ih (fun c hc => h c (List.mem_cons_of_mem a hc))]

lemma dropWhile_all_false {p : Char → Bool} {l : List Char}
    (h : ∀ c ∈ l, p c = false) : l.dropWhile p = l := by
  cases l with
  | nil => rfl
  | cons a l =>
    have hpa : p a = false := h a (List.mem_cons_self a l)
    rw [List.dropWhile_cons, hpa]
    simp

lemma trim_eq_self_of_urlChar {l : List Char} (h : ∀ c ∈ l, urlChar c = true) :
    jsTrim l = l := by
  have hws : ∀ c ∈ l, isJsWhitespace c = false := fun c hc => urlChar_not_ws (h c hc)
  unfold jsTrim dropTrailing
  rw [dropWhile_all_false hws,
    dropWhile_all_false (fun c hc => hws c (List.mem_reverse.mp hc)),
    List.reverse_reverse]

lemma stripTrailingSlashes_isPre (l : List Char) :
    ∃ u, stripTrailingSlashes l ++ u = l := by
  unfold stripTrailingSlashes dropTrailing
  obtain ⟨u, hu⟩ := List.dropWhile_suffix (l := l.reverse) (fun c => c == '/')
  refine ⟨u.reverse, ?_⟩
  rw [← List.reverse_append, hu, List.reverse_reverse]

lemma stripGitSuffix_isPre (l : List Char) : ∃ u, stripGitSuffix l ++ u = l := by
  unfold stripGitSuffix
  by_cases h : (strL ".git").isSuffixOf l = true
  · rw [if_pos h]
    exact ⟨l.drop (l.length - 4), List.take_append_drop _ l⟩
  · rw [if_neg h]
    exact ⟨[], List.append_nil l⟩

lemma isPrefixOf_false_of_pre {p r x u : List Char} (hru : r ++ u = x)
    (hx : p.isPrefixOf x = false) : p.isPrefixOf r = false := by
  cases hpr : p.isPrefixOf r
  · rfl
  · exfalso
    obtain ⟨v, hv⟩ := List.isPrefixOf_iff_prefix.mp hpr
    have hpx : p.isPrefixOf x = true := by
      apply List.isPrefixOf_iff_prefix.mpr
      exact ⟨v ++ u, by rw [← List.append_assoc, hv, hru]⟩
    rw [hx] at hpx
    exact Bool.false_ne_true hpx

lemma upgradeHttp_not_http (l : List Char) :
    (strL "http://").isPrefixOf (upgradeHttp l) = false := by
  unfold upgradeHttp
  by_cases h : (strL "http://").isPrefixOf l = true
  · rw [if_pos h]
    rfl
  · rw [if_neg h]
    exact Bool.eq_false_iff.mpr h

lemma upgradeHttp_eq_self {l : List Char}
    (h : (strL "http://").isPrefixOf l = false) : upgradeHttp l = l := by
  unfold upgradeHttp
  rw [h]
  simp

lemma stripTrailingSlashes_eq_self {l : List Char}
    (h : (strL "/").isSuffixOf l = false) : stripTrailingSlashes l = l := by
  unfold stripTrailingSlashes dropTrailing
  cases hl : l.reverse with
  | nil =>
    have hnil : l = [] := by simpa using congrArg List.reverse hl
    rw [hnil]
    rfl
  | cons a as =>
    by_cases ha : a = '/'
    · exfalso
      have hsuf : (strL "/").isSuffixOf l = true := by
        apply List.isSuffixOf_iff_suffix.mpr
        refine ⟨as.reverse, ?_⟩
        have hl' : l = as.reverse ++ [a] := by
          have := congrArg List.reverse hl
          simpa [List.reverse_cons] using this
        rw [hl', ha]
        rfl
      rw [h] at hsuf
      exact Bool.false_ne_true hsuf
    · have ha' : (a == '/') = false := by simpa using ha
      rw [List.dropWhile_cons, ha']
      rw [if_neg (show ¬(false = true) from fun hh => Bool.false_ne_true hh)]
      rw [← hl, List.reverse_reverse]

lemma stripGitSuffix_eq_self {l : List Char}
    (h : (strL ".git").isSuffixOf l = false) : stripGitSuffix l = l := by
  unfold stripGitSuffix
  rw [h]
  simp

lemma normalize_eq_self {l : List Char} (ht : jsTrim l = l) (hl : jsLower l = l)
    (hu : upgradeHttp l = l) (hs : stripTrailingSlashes l = l)
    (hg : stripGitSuffix l = l) : normalizeRepoUrl l = l := by
  unfold normalizeRepoUrl
  rw [ht, hl, hu, hs, hg]

/-- Core fixpoint fact: on a validator-accepted input whose normal form ends
in neither "/" nor ".git", one more normalization pass changes nothing. -/
lemma normalizeRepoUrl_fix {url : List Char} (hv : isValidGithubUrl url = true)
    (h1 : (strL "/").isSuffixOf (normalizeRepoUrl url) = false)
    (h2 : (strL ".git").isSuffixOf (normalizeRepoUrl url) = false) :
    normalizeRepoUrl (normalizeRepoUrl url) = normalizeRepoUrl url := by
  have hm : matchGithubUrl (jsTrim url) = true := ((Bool.and_eq_true _ _).mp hv).2
  have hall : ∀ c ∈ jsTrim url, urlChar c = true :=
    spec_all_urlChar ((matchGithubUrl_iff_spec _).mp hm)
  have hlow : ∀ c ∈ jsLower (jsTrim url), urlChar c = true ∧ jsLowerChar c = c := by
    intro c hc
    obtain ⟨a, ha, rfl⟩ := List.mem_map.mp hc
    exact ⟨urlChar_jsLowerChar (hall a ha), jsLowerChar_idem a⟩
  have hup : ∀ c ∈ upgradeHttp (jsLower (jsTrim url)),
      urlChar c = true ∧ jsLowerChar c = c := by
    intro c hc
    unfold upgradeHttp at hc
    by_cases hp : (strL "http://").isPrefixOf (jsLower (jsTrim url)) = true
    · rw [if_pos hp] at hc
      rcases List.mem_append.mp hc with hc | hc
      · exact (by decide : ∀ x ∈ strL "https://", urlChar x = true ∧ jsLowerChar x = x) c hc
      · exact hlow c (List.drop_subset _ _ hc)
    · rw [if_neg hp] at hc
      exact hlow c hc
  obtain ⟨u1, hu1⟩ := stripTrailingSlashes_isPre (upgradeHttp (jsLower (jsTrim url)))
  obtain ⟨u2, hu2⟩ := stripGitSuffix_isPre (stripTrailingSlashes (upgradeHttp (jsLower (jsTrim url))))
  have hgood : ∀ c ∈ normalizeRepoUrl url, urlChar c = true ∧ jsLowerChar c = c := by
    intro c hc
    apply hup
    have hc2 : c ∈ stripTrailingSlashes (upgradeHttp (jsLower (jsTrim url))) :=
      hu2 ▸ List.mem_append_left u2 hc
    exact hu1 ▸ List.mem_append_left u1 hc2
  have hpre : normalizeRepoUrl url ++ (u2 ++ u1) = upgradeHttp (jsLower (jsTrim url)) := by
    rw [← List.append_assoc]
    show stripGitSuffix (stripTrailingSlashes (upgradeHttp (jsLower (jsTrim url)))) ++ u2 ++ u1
      = upgradeHttp (jsLower (jsTrim url))
    rw [hu2, hu1]
  exact normalize_eq_self
    (trim_eq_self_of_urlChar (fun c hc => (hgood c hc).1))
    (map_fixed (fun c hc => (hgood c hc).2))
    (upgradeHttp_eq_self
      (isPrefixOf_false_of_pre hpre (upgradeHttp_not_http (jsLower (jsTrim url)))))
    (stripTrailingSlashes_eq_self h1)
    (stripGitSuffix_eq_self h2)

lemma dropWhile_idem (p : Char → Bool) (l : List Char) :
    (l.dropWhile p).dropWhile p = l.dropWhile p := by
  cases hd : l.dropWhile p with
  | nil => rfl
  | cons c b =>
    rw [List.dropWhile_cons, dropWhile_head_false p l c b hd]
    simp

lemma dropTrailing_isPre (p : Char → Bool) (l : List Char) :
    ∃ u, dropTrailing p l ++ u = l := by
  unfold dropTrailing
  obtain ⟨u, hu⟩ := List.dropWhile_suffix (l := l.reverse) p
  refine ⟨u.reverse, ?_⟩
  rw [← List.reverse_append, hu, List.reverse_reverse]

lemma dropTrailing_idem (p : Char → Bool) (l : List Char) :
    dropTrailing p (dropTrailing p l) = dropTrailing p l := by
  unfold dropTrailing
  rw [List.reverse_reverse, dropWhile_idem]

lemma jsTrim_idem (l : List Char) : jsTrim (jsTrim l) = jsTrim l := by
  unfold jsTrim
  have hfix : (dropTrailing isJsWhitespace (l.dropWhile isJsWhitespace)).dropWhile
      isJsWhitespace = dropTrailing isJsWhitespace (l.dropWhile isJsWhitespace) := by
    cases hd : dropTrailing isJsWhitespace (l.dropWhile isJsWhitespace) with
    | nil => rfl
    | cons c b =>
      obtain ⟨u, hu⟩ := dropTrailing_isPre isJsWhitespace (l.dropWhile isJsWhitespace)
      rw [hd] at hu
      have hm : l.dropWhile isJsWhitespace = c :: (b ++ u) := by
        rw [← hu]
        rfl
      rw [List.dropWhile_cons, dropWhile_head_false isJsWhitespace l c (b ++ u) hm]
      simp
  rw [hfix, dropTrailing_idem]

/-! ## Data model, from src/git-archiver-v2/src/lib/types.ts -/

/-- TaskStage union type from types.ts. -/
inductive TaskStage
  | cloning
  | pulling
  | archiving
  | compressing
  | checking_status
  deriving DecidableEq

/-- The wire string of each TaskStage value. -/
def stageName : TaskStage → String
  | .cloning => "cloning"
  | .pulling => "pulling"
  | .archiving => "archiving"
  | .compressing => "compressing"
  | .checking_status => "checking_status"

/-- TaskProgress interface from types.ts: repo_url, stage, nullable progress,
nullable message; there is no repo_id field. -/
structure TaskProgress where
  repo_url : String
  stage : TaskStage
  progress : Option Int
  message : Option String
  deriving DecidableEq

/-- The stage strings the code can emit. -/
def codeStageNames : List String :=
  ["cloning", "pulling", "archiving", "compressing", "checking_status"]

/-- Modelled from the spec: the stage set section 4.10 claims for
task-progress events; kept only to compare against the code's stages. -/
def specStageNames : List String :=
  ["Cloning", "Fetching", "Archiving", "Done", "Failed", "Cancelled"]

/-- RepoStatus union type from types.ts. -/
inductive RepoStatus
  | pending
  | active
  | archived
  | deleted
  | error
  deriving DecidableEq

/-- The wire string of each RepoStatus value. -/
def statusName : RepoStatus → String
  | .pending => "pending"
  | .active => "active"
  | .archived => "archived"
  | .deleted => "deleted"
  | .error => "error"

def statusNames : List String := ["pending", "active", "archived", "deleted", "error"]

/-- Repository interface from types.ts; only id and the string fields marked
nullable there are Options - status is not one. -/
structure Repository where
  id : Option Int
  owner : String
  name : String
  url : String
  status : RepoStatus
  description : Option String
  is_private : Bool
  local_path : Option String
  last_checked : Option String
  last_archived : Option String
  error_message : Option String
  created_at : String
  deriving DecidableEq

/-- statusConfig from the status-badge component: label and badge class per
status; total over RepoStatus. -/
def statusConfig : RepoStatus → String × String
  | .active => ("Active",
      "bg-emerald-100 text-emerald-800 border-emerald-200 dark:bg-emerald-900/30 dark:text-emerald-400 dark:border-emerald-800")
  | .pending => ("Pending",
      "bg-amber-100 text-amber-800 border-amber-200 dark:bg-amber-900/30 dark:text-amber-400 dark:border-amber-800")
  | .archived => ("Archived",
      "bg-blue-100 text-blue-800 border-blue-200 dark:bg-blue-900/30 dark:text-blue-400 dark:border-blue-800")
  | .deleted => ("Deleted",
      "bg-red-100 text-red-800 border-red-200 dark:bg-red-900/30 dark:text-red-400 dark:border-red-800")
  | .error => ("Error",
      "bg-destructive/10 text-destructive border-destructive/20 dark:bg-destructive/20 dark:text-red-400 dark:border-destructive/30")

/-- ArchiveView interface from types.ts. -/
structure ArchiveView where
  id : Option Int
  repo_id : Int
  filename : String
  file_size : Int
  file_count : Int
  is_incremental : Bool
  created_at : String
  deriving DecidableEq

/-- AppSettings interface from types.ts. -/
structure AppSettings where
  data_dir : String
  archive_format : String
  max_concurrent_tasks : Int
  auto_check_interval_minutes : Option Int
  deriving DecidableEq

/-- defaultSettings from settings-store.ts, fields in declaration order:
data_dir, archive_format, max_concurrent_tasks, auto_check_interval_minutes. -/
def defaultSettings : AppSettings := ⟨"data", "tar.xz", 4, none⟩

/-- The concurrency Slider of the settings dialog carries min 1, max 16,
step 1: any value the control delivers lies in 1..16. -/
def sliderSelect (raw : Int) : Int := max 1 (min 16 raw)

/-- The two places the concurrency value lives: the saved store value and the
dialog's local maxConcurrent form state. -/
structure SettingsUiState where
  stored : Int
  dialog : Int
  deriving DecidableEq

/-- Initial state: the store holds defaultSettings and the dialog's
useState(4) holds 4. -/
def initialSettingsUi : SettingsUiState := ⟨defaultSettings.max_concurrent_tasks, 4⟩

/-- The events that touch the concurrency value: opening the dialog copies
the store value into the form, moving the slider sets a slider value, saving
writes the form value back through saveSettings. -/
inductive SettingsEvent
  | openDialog
  | sliderChange (raw : Int)
  | save

def settingsStep (s : SettingsUiState) : SettingsEvent → SettingsUiState
  | .openDialog => ⟨s.stored, s.stored⟩
  | .sliderChange raw => ⟨s.stored, sliderSelect raw⟩
  | .save => ⟨s.dialog, s.dialog⟩

def runSettings (evs : List SettingsEvent) : SettingsUiState :=
  evs.foldl settingsStep initialSettingsUi

def settingsInv (s : SettingsUiState) : Prop :=
  1 ≤ s.stored ∧ s.stored ≤ 16 ∧ 1 ≤ s.dialog ∧ s.dialog ≤ 16

lemma settingsStep_inv {s : SettingsUiState} (h : settingsInv s) (e : SettingsEvent) :
    settingsInv (settingsStep s e) := by
  obtain ⟨h1, h2, h3, h4⟩ := h
  cases e with
  | openDialog => exact ⟨h1, h2, h1, h2⟩
  | sliderChange raw =>
    exact ⟨h1, h2, le_max_left 1 _, max_le (by norm_num) (min_le_left 16 raw)⟩
  | save => exact ⟨h3, h4, h3, h4⟩

lemma runSettings_inv (evs : List SettingsEvent) : settingsInv (runSettings evs) := by
  unfold runSettings
  have key : ∀ s, settingsInv s → settingsInv (evs.foldl settingsStep s) := by
    induction evs with
    | nil => exact fun s hs => hs
    | cons e evs ih => exact fun s hs => ih _ (settingsStep_inv hs e)
  exact key _ (by refine ⟨?_, ?_, ?_, ?_⟩ <;> decide)

/-- What AddRepoBar.handleSubmit does before any asynchronous work: nothing
for blank input, an Invalid URL toast when the validator rejects, otherwise
the add_repo backend call with the trimmed URL. -/
inductive SubmitAction
  | noop
  | invalidUrlToast
  | backendCall (url : List Char)
  deriving DecidableEq

/-- AddRepoBar.handleSubmit's decision on an input string. -/
def handleSubmitAction (url : List Char) : SubmitAction :=
  if (jsTrim url).isEmpty then .noop
  else if isValidGithubUrl (jsTrim url) then .backendCall (jsTrim url)
  else .invalidUrlToast

/-- repo-store addRepo's state update on backend success:
repos := [...state.repos, repo]. -/
def addRepoSuccess (repos : List Repository) (repo : Repository) : List Repository :=
  repos ++ [repo]

/-- repo-store deleteRepo's state update: repos.filter(r => r.id !== id). -/
def deleteRepoUpdate (repos : List Repository) (id : Int) : List Repository :=
  repos.filter (fun r => r.id ≠ some id)

/-- archive-viewer handleDelete's state update:
archives.filter(a => a.id !== archiveId). -/
def deleteArchiveUpdate (archives : List ArchiveView) (archiveId : Int) : List ArchiveView :=
  archives.filter (fun a => a.id ≠ some archiveId)

/-- The type field of an ActivityEntry. -/
inductive EntryType
  | info
  | success
  | error
  | warning
  deriving DecidableEq

/-- ActivityEntry interface from types.ts. -/
structure ActivityEntry where
  id : String
  timestamp : String
  message : String
  type : EntryType
  repo_url : Option String
  deriving DecidableEq

/-- MAX_LOG_ENTRIES from the task store. -/
def MAX_LOG_ENTRIES : Nat := 100

/-- task-store addLogEntry: activityLog := [entry, ...log].slice(0, 100). -/
def addLogEntry (entry : ActivityEntry) (log : List ActivityEntry) : List ActivityEntry :=
  (entry :: log).take MAX_LOG_ENTRIES

/-- The activity log after a sequence of addLogEntry calls from the empty
initial state. -/
def runLog (entries : List ActivityEntry) : List ActivityEntry :=
  entries.foldl (fun log e => addLogEntry e log) []

/-- The activeTasks JS Map: insertion-ordered key/value pairs. -/
abbrev TaskMap := List (String × TaskProgress)

/-- JS Map.set: replace in place when the key exists, append otherwise. -/
def mapSet (k : String) (v : TaskProgress) : TaskMap → TaskMap
  | [] => [(k, v)]
  | (k', v') :: rest => if k' = k then (k, v) :: rest else (k', v') :: mapSet k v rest

/-- JS Map.delete. -/
def mapDelete (k : String) (m : TaskMap) : TaskMap :=
  m.filter (fun q => q.1 ≠ k)

/-- JS Map.get. -/
def mapGet (k : String) (m : TaskMap) : Option TaskProgress := List.lookup k m

/-- task-store addProgress: activeTasks.set(progress.repo_url, progress). -/
def addProgress (p : TaskProgress) (m : TaskMap) : TaskMap :=
  mapSet p.repo_url p m

/-- task-store removeTask: activeTasks.delete(repoUrl). -/
def removeTask (u : String) (m : TaskMap) : TaskMap := mapDelete u m

/-- The operations App.tsx feeds the task store from backend events. -/
inductive TaskEvent
  | progress (p : TaskProgress)
  | remove (url : String)

def taskStep (m : TaskMap) : TaskEvent → TaskMap
  | .progress p => addProgress p m
  | .remove u => removeTask u m

/-- The activeTasks map after a sequence of store operations from the empty
initial state. -/
def runTasks (evs : List TaskEvent) : TaskMap := evs.foldl taskStep []

def mapKeys (m : TaskMap) : List String := m.map Prod.fst

/-- The size units of formatFileSize. -/
def sizeUnits : List (List Char) := [strL "B", strL "KB", strL "MB", strL "GB", strL "TB"]

/-- Math.floor(Math.log(bytes) / Math.log(1024)) for a positive byte count:
the floor of the base-1024 logarithm, an integer that is negative whenever
0 < bytes < 1 (binary-float rounding of Math.log is not modelled). -/
def fileSizeLogFloor (bytes : ℚ) : Int := Int.log 1024 bytes

/-- Math.min(i, units.length - 1): the index clamp is one-sided, above
only - a negative logarithm floor passes through. -/
def fileSizeUnitIndex (bytes : ℚ) : Int := min (fileSizeLogFloor bytes) 4

/-- JS array indexing units[index]: any out-of-range index - in particular
a negative one - reads undefined, which the template literal renders as the
string "undefined". -/
def jsUnitsAt (index : Int) : List Char :=
  if 0 ≤ index ∧ index.toNat < sizeUnits.length then sizeUnits.getD index.toNat []
  else strL "undefined"

/-- Number.prototype.toFixed(1), as decimal rounding of the exact rational;
no claim depends on the digits produced here. -/
def toFixed1 (q : ℚ) : List Char :=
  strL (toString (round (10 * q) / 10)) ++ strL "." ++
    strL (toString (round (10 * q) % 10))

/-- formatFileSize from src/git-archiver-v2 lib/utils, on exact rational
byte counts standing for the JS number argument (the ${bytes} text in the
index-zero branch is rendered as a rational). -/
def formatFileSize (bytes : ℚ) : List Char :=
  if bytes < 0 then strL "0 B"
  else if bytes = 0 then strL "0 B"
  else if fileSizeUnitIndex bytes = 0 then strL (toString bytes) ++ strL " B"
  else toFixed1 (bytes / (1024 : ℚ) ^ fileSizeUnitIndex bytes) ++ strL " " ++
    jsUnitsAt (fileSizeUnitIndex bytes)

lemma isValidGithubUrl_trim (url : List Char) :
    isValidGithubUrl (jsTrim url) = isValidGithubUrl url := by
  unfold isValidGithubUrl
  rw [jsTrim_idem]

lemma take_pred_of_length {α : Type} (l : List α) (n : Nat) (h : l.length = n + 1) :
    l.take n = l.dropLast := by
  rw [List.dropLast_eq_take, h]
  simp

lemma addLogEntry_length_le (e : ActivityEntry) (log : List ActivityEntry) :
    (addLogEntry e log).length ≤ MAX_LOG_ENTRIES := by
  unfold addLogEntry
  rw [List.length_take]
  exact min_le_left _ _

lemma runLog_length_le (entries : List ActivityEntry) :
    (runLog entries).length ≤ MAX_LOG_ENTRIES := by
  unfold runLog
  have key : ∀ log : List ActivityEntry, log.length ≤ MAX_LOG_ENTRIES →
      (entries.foldl (fun l e => addLogEntry e l) log).length ≤ MAX_LOG_ENTRIES := by
    induction entries with
    | nil => exact fun log h => h
    | cons e es ih => exact fun log _ => ih _ (addLogEntry_length_le e log)
  exact key [] (by simp [MAX_LOG_ENTRIES])

lemma mapSet_length_of_mem {k : String} {m : TaskMap} (v : TaskProgress)
    (h : k ∈ mapKeys m) : (mapSet k v m).length = m.length := by
  induction m with
  | nil => simp [mapKeys] at h
  | cons q rest ih =>
    obtain ⟨k', v'⟩ := q
    unfold mapSet
    by_cases hk : k' = k
    · rw [if_pos hk]
      simp
    · rw [if_neg hk]
      have hmem : k ∈ mapKeys rest := by
        simp [mapKeys] at h
        rcases h with h | h
        · exact absurd h.symm hk
        · simpa [mapKeys] using h
      simp [ih hmem]

lemma mapGet_mapSet (k : String) (v : TaskProgress) (m : TaskMap) :
    mapGet k (mapSet k v m) = some v := by
  induction m with
  | nil => simp [mapSet, mapGet, List.lookup]
  | cons q rest ih =>
    obtain ⟨k', v'⟩ := q
    unfold mapSet
    by_cases hk : k' = k
    · rw [if_pos hk]
      simp [mapGet, List.lookup]
    · rw [if_neg hk]
      have hne : (k == k') = false := by simpa using Ne.symm hk
      show List.lookup k ((k', v') :: mapSet k v rest) = some v
      simp [List.lookup, hne]
      exact ih

lemma mem_mapKeys_mapSet {x k : String} {v : TaskProgress} {m : TaskMap}
    (h : x ∈ mapKeys (mapSet k v m)) : x ∈ mapKeys m ∨ x = k := by
  induction m with
  | nil =>
    simp [mapSet, mapKeys] at h
    exact Or.inr h
  | cons q rest ih =>
    obtain ⟨k', v'⟩ := q
    unfold mapSet at h
    by_cases hk : k' = k
    · rw [if_pos hk] at h
      simp [mapKeys] at h ⊢
      rcases h with h | h
      · exact Or.inr h
      · exact Or.inl (Or.inr h)
    · rw [if_neg hk] at h
      simp [mapKeys] at h ⊢
      rcases h with h | h
      · exact Or.inl (Or.inl h)
      · rcases ih (by simpa [mapKeys] using h) with h' | h'
        · exact Or.inl (Or.inr (by simpa [mapKeys] using h'))
        · exact Or.inr h'

lemma nodup_mapKeys_mapSet {k : String} {v : TaskProgress} {m : TaskMap}
    (h : (mapKeys m).Nodup) : (mapKeys (mapSet k v m)).Nodup := by
  induction m with
  | nil =>
    show ([k]).Nodup
    simp
  | cons q rest ih =>
    obtain ⟨k', v'⟩ := q
    have h' : k' ∉ mapKeys rest ∧ (mapKeys rest).Nodup := by
      rw [show mapKeys ((k', v') :: rest) = k' :: mapKeys rest from rfl] at h
      exact List.nodup_cons.mp h
    unfold mapSet
    by_cases hk : k' = k
    · rw [if_pos hk]
      rw [show mapKeys ((k, v) :: rest) = k :: mapKeys rest from rfl, List.nodup_cons]
      subst hk
      exact h'
    · rw [if_neg hk]
      rw [show mapKeys ((k', v') :: mapSet k v rest) = k' :: mapKeys (mapSet k v rest) from rfl,
        List.nodup_cons]
      refine ⟨fun hmem => ?_, ih h'.2⟩
      rcases mem_mapKeys_mapSet hmem with hx | hx
      · exact h'.1 hx
      · exact hk hx

lemma mapDelete_keys_sublist (u : String) (m : TaskMap) :
    (mapKeys (mapDelete u m)).Sublist (mapKeys m) :=
  (List.filter_sublist m).map Prod.fst

lemma mapDelete_idem (u : String) (m : TaskMap) :
    mapDelete u (mapDelete u m) = mapDelete u m := by
  unfold mapDelete
  induction m with
  | nil => rfl
  | cons a l ih =>
    by_cases h : a.1 ≠ u
    · rw [List.filter_cons, if_pos (by simpa using h)]
      rw [List.filter_cons, if_pos (by simpa using h)]
      rw [ih]
    · rw [List.filter_cons, if_neg (by simpa using h)]
      exact ih

lemma runTasks_nodup (evs : List TaskEvent) : (mapKeys (runTasks evs)).Nodup := by
  unfold runTasks
  have key : ∀ m, (mapKeys m).Nodup → (mapKeys (evs.foldl taskStep m)).Nodup := by
    induction evs with
    | nil => exact fun m hm => hm
    | cons e evs ih =>
      intro m hm
      apply ih
      cases e with
      | progress p => exact nodup_mapKeys_mapSet hm
      | remove u => exact hm.sublist (mapDelete_keys_sublist u m)
  exact key [] (by simp [mapKeys])

lemma getD_mem {α : Type} (l : List α) (i : Nat) (d : α) (h : i < l.length) :
    l.getD i d ∈ l := by
  induction l generalizing i with
  | nil => simp at h
  | cons a l ih =>
    cases i with
    | zero => simp [List.getD]
    | succ j =>
      rw [show (a :: l).getD (j + 1) d = l.getD j d from by simp [List.getD]]
      exact List.mem_cons_of_mem a (ih j (by simpa using h))

/-! ## The claims -/

/-- C1 counterexample: "github.com/owner/repo/.git" is accepted by
isValidGithubUrl, but normalizing it once strips the ".git" and leaves a
trailing "/" that only a second pass removes, so normalization is not
idempotent on accepted inputs. -/
theorem normalizeRepoUrl_not_idempotent_on_accepted :
    isValidGithubUrl (strL "github.com/owner/repo/.git") = true ∧
    normalizeRepoUrl (normalizeRepoUrl (strL "github.com/owner/repo/.git")) ≠
      normalizeRepoUrl (strL "github.com/owner/repo/.git") := by
  constructor
  · decide
  · decide

/-- C1 (amended): normalization is idempotent on every validator-accepted
input whose normalized form ends in neither "/" nor ".git" - the residual
suffixes a single replace pass can leave behind are exactly what the
counterexample exploits. -/
theorem normalizeRepoUrl_idem_of_clean_suffix (url : List Char)
    (hv : isValidGithubUrl url = true)
    (h1 : (strL "/").isSuffixOf (normalizeRepoUrl url) = false)
    (h2 : (strL ".git").isSuffixOf (normalizeRepoUrl url) = false) :
    normalizeRepoUrl (normalizeRepoUrl url) = normalizeRepoUrl url :=
  normalizeRepoUrl_fix hv h1 h2

/-- C1 witness: the amended idempotence at a concrete accepted URL. -/
theorem normalizeRepoUrl_idem_of_clean_suffix_witness :
    normalizeRepoUrl (normalizeRepoUrl (strL "https://github.com/Octo-Cat/Hello_World")) =
      normalizeRepoUrl (strL "https://github.com/Octo-Cat/Hello_World") :=
  normalizeRepoUrl_idem_of_clean_suffix (strL "https://github.com/Octo-Cat/Hello_World")
    (by decide) (by decide) (by decide)

/-- C2 counterexample: a string containing whitespace that the validator
nevertheless accepts, because it trims before testing the regex - against
the claim that every string with whitespace returns false. -/
theorem isValidGithubUrl_accepts_whitespace_string :
    (strL " github.com/a/b").any isJsWhitespace = true ∧
    isValidGithubUrl (strL " github.com/a/b") = true := by
  constructor
  · decide
  · decide

/-- C2 (amended): the validator accepts exactly the strings whose trimmed
form is an optional http/https scheme, an optional "www.", the host
github.com, and exactly two nonempty [a-zA-Z0-9_.-] segments followed by an
optional "/", an optional ".git" and an optional final "/" in that order
(so tails like "//", "/.git", "/.git/" also pass); everything else - other
hosts, wrong segment counts, percent-escapes or whitespace surviving the
trim - is rejected. -/
theorem isValidGithubUrl_exact_language (url : List Char) :
    isValidGithubUrl url = true ↔ SpecGithubUrl (jsTrim url) := by
  unfold isValidGithubUrl
  rw [Bool.and_eq_true]
  constructor
  · rintro ⟨-, hm⟩
    exact (matchGithubUrl_iff_spec _).mp hm
  · intro hs
    have hm := (matchGithubUrl_iff_spec _).mpr hs
    refine ⟨?_, hm⟩
    cases he : (jsTrim url).isEmpty
    · rfl
    · exfalso
      have hnil : jsTrim url = [] := by simpa using he
      rw [hnil] at hm
      exact Bool.false_ne_true hm

/-- C3 counterexample: "pulling" is a stage the code's TaskProgress carries,
yet it is not in the claimed set {Cloning, Fetching, Archiving, Done,
Failed, Cancelled}; the code's stage set is a different one. -/
theorem taskStage_pulling_outside_spec_stages :
    stageName TaskStage.pulling ∉ specStageNames ∧
    stageName TaskStage.pulling ∈ codeStageNames := by
  constructor
  · decide
  · decide

/-- C3 (amended): every task-progress event carries repo_url (there is no
repo_id field), an optional numeric progress and an optional message, and a
stage drawn from exactly {cloning, pulling, archiving, compressing,
checking_status}. -/
theorem taskProgress_stage_in_code_stages (p : TaskProgress) :
    stageName p.stage ∈ codeStageNames := by
  cases hst : p.stage <;> decide

/-- C4: a Repository's status is always present (the field is not an Option)
and is one of exactly {pending, active, archived, deleted, error}; the
status badge's statusConfig is total on the same five values. -/
theorem repository_status_closed (r : Repository) :
    statusName r.status ∈ statusNames ∧
    (statusConfig r.status).1 ∈ ["Pending", "Active", "Archived", "Deleted", "Error"] := by
  cases hst : r.status <;> exact ⟨by decide, by decide⟩

/-- C5: max_concurrent_tasks defaults to 4, and from the default state every
sequence of settings-dialog events (open, slider moves clamped to the
1..16 slider range, save) keeps both the dialog value and the saved store
value inside 1..16, so a save never records an out-of-range concurrency. -/
theorem maxConcurrent_default_and_bounded :
    defaultSettings.max_concurrent_tasks = 4 ∧
    ∀ evs : List SettingsEvent,
      (1 ≤ (runSettings evs).stored ∧ (runSettings evs).stored ≤ 16) ∧
      (1 ≤ (runSettings evs).dialog ∧ (runSettings evs).dialog ≤ 16) := by
  refine ⟨rfl, fun evs => ?_⟩
  obtain ⟨h1, h2, h3, h4⟩ := runSettings_inv evs
  exact ⟨⟨h1, h2⟩, ⟨h3, h4⟩⟩

/-- C6 counterexample: the whitespace-only string is rejected by the
validator, yet submitting it does nothing at all - no invalid-URL error is
reported, against the claim that every rejected string reports one. -/
theorem handleSubmit_blank_rejected_silently :
    isValidGithubUrl (strL "   ") = false ∧
    handleSubmitAction (strL "   ") = SubmitAction.noop ∧
    SubmitAction.noop ≠ SubmitAction.invalidUrlToast := by
  refine ⟨by decide, by decide, by decide⟩

/-- C6 (amended): a validator-rejected URL never reaches the backend - blank
input is ignored silently and any other rejected input raises the
invalid-URL toast, leaving the repository list untouched; an accepted URL is
passed to add_repo trimmed, and a successful add appends exactly one
Repository, preserving the existing entries. -/
theorem handleSubmit_dispatch (url : List Char) :
    (isValidGithubUrl url = false →
      (∀ u, handleSubmitAction url ≠ SubmitAction.backendCall u) ∧
      ((jsTrim url).isEmpty = true → handleSubmitAction url = SubmitAction.noop) ∧
      ((jsTrim url).isEmpty = false →
        handleSubmitAction url = SubmitAction.invalidUrlToast)) ∧
    (isValidGithubUrl url = true →
      handleSubmitAction url = SubmitAction.backendCall (jsTrim url)) ∧
    (∀ (repos : List Repository) (repo : Repository),
      (addRepoSuccess repos repo).length = repos.length + 1 ∧
      (addRepoSuccess repos repo).take repos.length = repos) := by
  refine ⟨?_, ?_, ?_⟩
  · intro hv
    unfold handleSubmitAction
    by_cases he : (jsTrim url).isEmpty = true
    · rw [if_pos he]
      refine ⟨fun u h => by simp at h, fun _ => rfl, fun hf => ?_⟩
      rw [he] at hf
      exact absurd hf (by decide)
    · rw [if_neg he]
      have hvt : isValidGithubUrl (jsTrim url) = false := by
        rw [isValidGithubUrl_trim, hv]
      rw [hvt]
      refine ⟨fun u h => by simp at h, fun ht => ?_, fun _ => by simp⟩
      exact absurd ht he
  · intro hv
    unfold handleSubmitAction
    have he : (jsTrim url).isEmpty = false := by
      have h1 := ((Bool.and_eq_true _ _).mp hv).1
      simpa using h1
    rw [he]
    have hvt : isValidGithubUrl (jsTrim url) = true := by
      rw [isValidGithubUrl_trim, hv]
    rw [hvt]
    simp
  · intro repos repo
    constructor
    · show (repos ++ [repo]).length = repos.length + 1
      simp
    · exact List.take_left repos [repo]

/-- C7: deletion is exact on both lists: the result is a sublist of the
original, an entry survives exactly when its id differs from the deleted
one, and per-entry multiplicities are untouched unless the id matches. -/
theorem delete_exact_frame (repos : List Repository) (id : Int)
    (archives : List ArchiveView) (archiveId : Int) :
    (deleteRepoUpdate repos id).Sublist repos ∧
    (∀ r, r ∈ deleteRepoUpdate repos id ↔ (r ∈ repos ∧ r.id ≠ some id)) ∧
    (∀ r, (deleteRepoUpdate repos id).count r =
      if r.id = some id then 0 else repos.count r) ∧
    (deleteArchiveUpdate archives archiveId).Sublist archives ∧
    (∀ a, a ∈ deleteArchiveUpdate archives archiveId ↔
      (a ∈ archives ∧ a.id ≠ some archiveId)) ∧
    (∀ a, (deleteArchiveUpdate archives archiveId).count a =
      if a.id = some archiveId then 0 else archives.count a) := by
  refine ⟨List.filter_sublist repos, fun r => ?_, fun r => ?_,
    List.filter_sublist archives, fun a => ?_, fun a => ?_⟩
  · simp [deleteRepoUpdate, List.mem_filter]
  · by_cases h : r.id = some id
    · rw [if_pos h, List.count_eq_zero]
      intro hmem
      have h2 := (List.mem_filter.mp hmem).2
      simp [h] at h2
    · rw [if_neg h]
      exact List.count_filter (by simpa using h)
  · simp [deleteArchiveUpdate, List.mem_filter]
  · by_cases h : a.id = some archiveId
    · rw [if_pos h, List.count_eq_zero]
      intro hmem
      have h2 := (List.mem_filter.mp hmem).2
      simp [h] at h2
    · rw [if_neg h]
      exact List.count_filter (by simpa using h)

/-- C8: after any sequence of addLogEntry calls the activity log holds at
most 100 entries, the newest entry always sits at index 0, and adding to a
log already at the bound drops exactly the oldest (last) entry. -/
theorem activityLog_bounded_newest_first :
    (∀ entries : List ActivityEntry, (runLog entries).length ≤ MAX_LOG_ENTRIES) ∧
    (∀ (e : ActivityEntry) (log : List ActivityEntry),
      (addLogEntry e log).head? = some e) ∧
    (∀ (e : ActivityEntry) (log : List ActivityEntry),
      log.length = MAX_LOG_ENTRIES → addLogEntry e log = e :: log.dropLast) := by
  refine ⟨runLog_length_le, fun e log => ?_, fun e log hlen => ?_⟩
  · show ((e :: log).take MAX_LOG_ENTRIES).head? = some e
    rw [show MAX_LOG_ENTRIES = 99 + 1 from rfl, List.take_succ_cons]
    rfl
  · show (e :: log).take MAX_LOG_ENTRIES = e :: log.dropLast
    rw [show MAX_LOG_ENTRIES = 99 + 1 from rfl, List.take_succ_cons,
      take_pred_of_length log 99 (by rw [hlen]; rfl)]

/-- C9: from the empty map, the active-task map never holds two entries with
the same repo_url; addProgress on a present url replaces the entry in place
(size unchanged, value replaced), removeTask is idempotent, and the map's
size - the reported active-task count - equals the number of distinct urls
it holds. -/
theorem activeTasks_map_invariants :
    (∀ evs : List TaskEvent, (mapKeys (runTasks evs)).Nodup) ∧
    (∀ (p : TaskProgress) (m : TaskMap), p.repo_url ∈ mapKeys m →
      (addProgress p m).length = m.length) ∧
    (∀ (p : TaskProgress) (m : TaskMap), mapGet p.repo_url (addProgress p m) = some p) ∧
    (∀ (u : String) (m : TaskMap), removeTask u (removeTask u m) = removeTask u m) ∧
    (∀ evs : List TaskEvent,
      (runTasks evs).length = (mapKeys (runTasks evs)).dedup.length) := by
  refine ⟨runTasks_nodup, fun p m hm => mapSet_length_of_mem p hm,
    fun p m => mapGet_mapSet p.repo_url p m, fun u m => mapDelete_idem u m, fun evs => ?_⟩
  rw [(runTasks_nodup evs).dedup]
  show (runTasks evs).length = ((runTasks evs).map Prod.fst).length
  rw [List.length_map]

/-- C10 counterexample: on the finite numeric byte count 1/2 the source's
unit index is Math.min(-1, 4) = -1, units[-1] is undefined, and the output
is "512.0 undefined" - its unit is none of B, KB, MB, GB, TB, falsifying
the claimed clamp over every finite numeric byte count. -/
theorem formatFileSize_fraction_undefined_unit :
    fileSizeUnitIndex (1 / 2 : ℚ) = -1 ∧
    formatFileSize (1 / 2 : ℚ) = strL "512.0 undefined" ∧
    (∀ u ∈ sizeUnits, u.isSuffixOf (formatFileSize (1 / 2 : ℚ)) = false) := by
  have hlog : Int.log 1024 ((1 : ℚ) / 2) = -1 := by
    rw [Int.log_of_right_le_one 1024 (by norm_num)]
    norm_num
    rw [Nat.clog_eq_one (by norm_num) (by norm_num)]
  have hidx : fileSizeUnitIndex (1 / 2 : ℚ) = -1 := by
    unfold fileSizeUnitIndex fileSizeLogFloor
    rw [hlog]
    decide
  have hdiv : ((1 : ℚ) / 2) / (1024 : ℚ) ^ (-1 : ℤ) = 512 := by norm_num
  have hround : round ((10 : ℚ) * 512) = 5120 := by norm_num [round_eq]
  have hfull : formatFileSize (1 / 2 : ℚ) = strL "512.0 undefined" := by
    unfold formatFileSize
    rw [if_neg (by norm_num), if_neg (by norm_num), hidx,
      if_neg (show ¬((-1 : ℤ) = 0) from by decide), hdiv]
    rw [show jsUnitsAt (-1) = strL "undefined" from by
      unfold jsUnitsAt
      rw [if_neg (by decide)]]
    unfold toFixed1
    rw [hround]
    decide
  have hsuf : ∀ u ∈ sizeUnits, u.isSuffixOf (strL "512.0 undefined") = false := by decide
  refine ⟨hidx, hfull, fun u hu => ?_⟩
  rw [hfull]
  exact hsuf u hu

/-- C10 (amended): formatFileSize yields "0 B" for every nonpositive byte
count and its unit index is clamped from above; for every byte count of at
least 1 - in particular every positive integer byte count - the index is
also nonnegative and the output ends in one of B, KB, MB, GB, TB.  For the
remaining inputs, the fractions strictly between 0 and 1, the index is
negative and the rendered unit is the string "undefined". -/
theorem formatFileSize_unit_clamped_above (bytes : ℚ) :
    (bytes ≤ 0 → formatFileSize bytes = strL "0 B") ∧
    fileSizeUnitIndex bytes ≤ 4 ∧
    (1 ≤ bytes →
      0 ≤ fileSizeUnitIndex bytes ∧ ∃ u ∈ sizeUnits, u <:+ formatFileSize bytes) := by
  refine ⟨?_, min_le_right _ 4, ?_⟩
  · intro h
    unfold formatFileSize
    rcases lt_or_eq_of_le h with hlt | heq
    · rw [if_pos hlt]
    · rw [if_neg (by simp [heq]), if_pos heq]
  · intro h1
    have hnn : 0 ≤ fileSizeUnitIndex bytes := by
      refine le_min ?_ (by decide)
      unfold fileSizeLogFloor
      rw [Int.log_of_one_le_right 1024 h1]
      positivity
    refine ⟨hnn, ?_⟩
    unfold formatFileSize
    rw [if_neg (not_lt.mpr (le_trans zero_le_one h1)),
      if_neg (fun h0 => by rw [h0] at h1; norm_num at h1)]
    by_cases h3 : fileSizeUnitIndex bytes = 0
    · rw [if_pos h3]
      exact ⟨strL "B", by decide,
        ⟨strL (toString bytes) ++ strL " ", by rw [List.append_assoc]; rfl⟩⟩
    · rw [if_neg h3]
      refine ⟨jsUnitsAt (fileSizeUnitIndex bytes), ?_, List.suffix_append _ _⟩
      have hlt : (fileSizeUnitIndex bytes).toNat < sizeUnits.length := by
        rw [show sizeUnits.length = 5 from rfl]
        have h4 : fileSizeUnitIndex bytes ≤ 4 := min_le_right _ 4
        omega
      unfold jsUnitsAt
      rw [if_pos ⟨hnn, hlt⟩]
      exact getD_mem sizeUnits (fileSizeUnitIndex bytes).toNat [] hlt

/-- The embedded URL functions reproduce the expectations of the
repository's own vitest suite (lib utils tests). -/
lemma url_embedding_matches_test_suite :
    isValidGithubUrl (strL "https://github.com/owner/repo") = true ∧
    isValidGithubUrl (strL "http://github.com/owner/repo") = true ∧
    isValidGithubUrl (strL "github.com/owner/repo") = true ∧
    isValidGithubUrl (strL "https://github.com/owner/repo.git") = true ∧
    isValidGithubUrl (strL "https://github.com/owner/repo/") = true ∧
    isValidGithubUrl (strL "https://www.github.com/owner/repo") = true ∧
    isValidGithubUrl (strL "https://github.com/my-org/my_repo.js") = true ∧
    isValidGithubUrl (strL "") = false ∧
    isValidGithubUrl (strL "   ") = false ∧
    isValidGithubUrl (strL "https://gitlab.com/owner/repo") = false ∧
    isValidGithubUrl (strL "https://github.com/owner") = false ∧
    isValidGithubUrl (strL "https://github.com/") = false ∧
    isValidGithubUrl (strL "https://github.com/owner/repo/tree/main") = false ∧
    isValidGithubUrl (strL "not a url") = false ∧
    normalizeRepoUrl (strL "https://GitHub.com/Owner/Repo") =
      strL "https://github.com/owner/repo" ∧
    normalizeRepoUrl (strL "https://github.com/owner/repo///") =
      strL "https://github.com/owner/repo" ∧
    normalizeRepoUrl (strL "https://github.com/owner/repo.git") =
      strL "https://github.com/owner/repo" ∧
    normalizeRepoUrl (strL "http://github.com/owner/repo") =
      strL "https://github.com/owner/repo" ∧
    normalizeRepoUrl (strL "http://GitHub.com/Owner/Repo.git/") =
      strL "https://github.com/owner/repo" ∧
    normalizeRepoUrl (strL "  https://github.com/owner/repo  ") =
      strL "https://github.com/owner/repo" := by
  decide

end GitArchiver
